import Mathlib

/-!
Verification of the ryu binary codec excerpt: the IPv6 header /
extension-header codec (ryu/lib/packet/ipv6.py) and the NXM flow-match
field codec (ryu/ofproto/nx_match.py), shallowly embedded over lists of
bytes (naturals).  Python `struct` integer formats are modelled by
big-endian byte lists; `struct.pack` range errors are not modelled as
such - theorems restrict to in-range inputs, where pack succeeds.
-/

set_option maxRecDepth 4000

/-- Big-endian encoding of a natural number into a fixed number of bytes,
modelling the Python struct integer pack formats. -/
def toBytesBE : Nat → Nat → List Nat
  | 0, _ => []
  | n + 1, v => toBytesBE n (v / 256) ++ [v % 256]

/-- Big-endian decoding of a byte list, modelling struct integer unpack. -/
def fromBytesBE (l : List Nat) : Nat :=
  l.foldl (fun a b => a * 256 + b) 0

/-- Model of packing a bytes object with a struct format of fixed size n
(truncate or zero-pad the data to exactly n bytes). -/
def packBytes (n : Nat) (s : List Nat) : List Nat :=
  s.take n ++ List.replicate (n - s.length) 0

/-- ryu.lib.packet.ipv6.option: one IPv6 TLV option.  `len_` is -1 for the
one-byte pad form (type 0), the declared data length otherwise. -/
structure option where
  type_ : Nat
  len_ : Int
  data : Option (List Nat)
deriving DecidableEq, Repr

/-- option.parser: peek the first byte as the type; type 0 is the pad-one
form; otherwise read type and length, and length bytes of data when the
length is nonzero. -/
def option.parser (buf : List Nat) : Option option :=
  match buf with
  | [] => none
  | t :: rest =>
    if t = 0 then some ⟨t, -1, none⟩
    else
      match rest with
      | [] => none
      | l :: rest2 =>
        if l = 0 then some ⟨t, (l : Int), none⟩
        else if l ≤ rest2.length then some ⟨t, (l : Int), some (rest2.take l)⟩
        else none

/-- option.serialize: type 0 gives a single zero byte; a zero length gives
type and length only; otherwise type, length and the data packed to the
declared length. -/
def option.serialize (o : option) : List Nat :=
  if o.type_ = 0 then [o.type_ % 256]
  else if o.len_ = 0 then [o.type_ % 256, 0]
  else [o.type_ % 256, o.len_.toNat % 256] ++ packBytes o.len_.toNat (o.data.getD [])

/-- option.__len__ = _MIN_LEN + len_ = 2 + len_ (an int; -1 is the pad
sentinel, giving 1). -/
def option.len (o : option) : Int := 2 + o.len_

/-- The number of bytes an option occupies on the wire, as the nonnegative
value of option.__len__. -/
def option.serLen (o : option) : Nat := (2 + o.len_).toNat

/-- Well-formedness of an option object: the pad form is exactly
(0, -1, no data); a value form has a byte-sized nonzero type, and data of
exactly the declared length when that length is positive. -/
def option.wf (o : option) : Bool :=
  if o.type_ = 0 then decide (o.len_ = -1) && decide (o.data = none)
  else
    decide (o.type_ < 256) &&
    (match o.data with
     | none => decide (o.len_ = 0)
     | some d =>
       decide (0 < o.len_) && decide (o.len_ < 256) &&
       decide ((d.length : Int) = o.len_) && d.all (fun b => decide (b < 256)))

/-- ryu.lib.packet.ipv6.opt_header: an option-bearing extension header
(hop-by-hop options / destination options).  `size` is the byte count of
the trailing option data beyond the first 8-byte block. -/
structure opt_header where
  nxt : Nat
  size : Nat
  data : List option
deriving DecidableEq, Repr

/-- The option-scanning loop of opt_header.parser: starting at `size`,
repeatedly peek one byte; a zero byte is a pad-one option advancing by 1,
anything else delegates to option.parser and advances by that option's
encoded length; stop once the offset reaches `data_len`.  The loop runs at
most data_len iterations, counted by the first (fuel) argument. -/
def parseOpts (buf : List Nat) : Nat → Nat → Nat → Option (List option × Nat)
  | 0, size, data_len => if size < data_len then none else some ([], size)
  | fuel + 1, size, data_len =>
    if size < data_len then
      match buf.get? size with
      | none => none
      | some t =>
        if t = 0 then
          match parseOpts buf fuel (size + 1) data_len with
          | none => none
          | some (opts, s) => some (⟨0, -1, none⟩ :: opts, s)
        else
          match option.parser (buf.drop size) with
          | none => none
          | some o =>
            match parseOpts buf fuel (size + o.serLen) data_len with
            | none => none
            | some (opts, s) => some (o :: opts, s)
    else some ([], size)

/-- opt_header.parser: read next-type and size, scan options from offset 2
up to data_len = _FIX_SIZE + size, and build the header.  The constructor
assertion `not (size % 8)` makes a size that is not a multiple of 8 a
failure. -/
def opt_header.parser (buf : List Nat) : Option opt_header :=
  match buf with
  | nxt :: len_ :: _ =>
    match parseOpts buf (8 + len_) 2 (8 + len_) with
    | none => none
    | some (opts, _) => if len_ % 8 = 0 then some ⟨nxt, len_, opts⟩ else none
  | _ => none

/-- opt_header.serialize: pack next-type and size, then each option in
order. -/
def opt_header.serialize (h : opt_header) : List Nat :=
  [h.nxt % 256, h.size % 256] ++ (h.data.map option.serialize).flatten

/-- opt_header.__len__ = _FIX_SIZE + size = 8 + size. -/
def opt_header.len (h : opt_header) : Nat := 8 + h.size

/-- Well-formedness of an option header: byte-sized fields, the size a
multiple of 8, well-formed options that together occupy exactly
6 + size bytes (so the options tile the region after the 2-byte fixed
prefix of the 8 + size byte block). -/
def opt_header.wf (h : opt_header) : Bool :=
  decide (h.nxt < 256) && decide (h.size < 256) && decide (h.size % 8 = 0) &&
  h.data.all option.wf &&
  decide ((h.data.map option.serLen).sum = 6 + h.size)

/-- Modelled from the spec: the extension-header registry
ipv6._IPV6_EXT_HEADER_TYPE.  The registered classes (the hop-by-hop and
destination options headers, both opt_header variants sharing
opt_header.parser) are not part of this excerpt; the registry is modelled
as the set of their protocol numbers (0 = hop-by-hop options,
60 = destination options), each dispatching to opt_header.parser. -/
def IPV6_EXT_HEADER_TYPE : List Nat := [0, 60]

/-- ryu.lib.packet.ipv6.ipv6: the fixed IPv6 header fields plus the
extension-header chain.  Addresses are modelled in their 16-byte binary
form (the textual conversion lives in ryu.lib.addrconv, outside this
excerpt, and is a bijection on canonical forms).  Each chain element pairs
the registered type code of the header's class with the header itself. -/
structure ipv6 where
  version : Nat
  traffic_class : Nat
  flow_label : Nat
  payload_length : Nat
  nxt : Nat
  hop_limit : Nat
  src : List Nat
  dst : List Nat
  ext_hdrs : List (Nat × opt_header)
deriving DecidableEq, Repr

/-- The relinking loop of ipv6.__init__, after the first extension header
has absorbed the header's own nxt: each further header receives the
pending header's nxt, and the pending header's nxt is overwritten with the
newcomer's type code. -/
def relinkGo (pending : Nat × opt_header) : List (Nat × opt_header) → List (Nat × opt_header)
  | [] => [pending]
  | e :: rest =>
    (pending.1, { pending.2 with nxt := e.1 }) ::
      relinkGo (e.1, { e.2 with nxt := pending.2.nxt }) rest

/-- The chain shape the constructor establishes: every header's nxt is its
successor's type code, and the last header's nxt is u. -/
def linkTypes (u : Nat) : List (Nat × opt_header) → List (Nat × opt_header)
  | [] => []
  | [(t, h)] => [(t, { h with nxt := u })]
  | (t, h) :: (t2, h2) :: rest => (t, { h with nxt := t2 }) :: linkTypes u ((t2, h2) :: rest)

/-- ipv6.__init__: store the fixed fields; when extension headers are
supplied, rewrite the chain linkage (the header's own nxt becomes the
first extension header's type code, and each extension header's nxt is
overwritten as in relinkGo). -/
def ipv6.init (version traffic_class flow_label payload_length nxt hop_limit : Nat)
    (src dst : List Nat) (ext_hdrs : List (Nat × opt_header)) : ipv6 :=
  match ext_hdrs with
  | [] => ⟨version, traffic_class, flow_label, payload_length, nxt, hop_limit, src, dst, []⟩
  | e :: rest =>
    ⟨version, traffic_class, flow_label, payload_length, e.1, hop_limit, src, dst,
      relinkGo (e.1, { e.2 with nxt := nxt }) rest⟩

/-- ipv6.serialize: pack the fixed 40-byte header (note the flow label is
shifted left by 12 bits on encode) followed by each extension header's
serialization in chain order.  The payload and previous-header arguments
of the Python method are unused there and omitted here. -/
def ipv6.serialize (h : ipv6) : List Nat :=
  toBytesBE 4 (h.version <<< 28 ||| h.traffic_class <<< 20 ||| h.flow_label <<< 12) ++
  toBytesBE 2 h.payload_length ++
  [h.nxt % 256] ++
  [h.hop_limit % 256] ++
  packBytes 16 h.src ++
  packBytes 16 h.dst ++
  (h.ext_hdrs.map (fun e => opt_header.serialize e.2)).flatten

/-- ipv6.__len__ = _MIN_LEN + the extension headers' lengths. -/
def ipv6.len (h : ipv6) : Nat :=
  40 + (h.ext_hdrs.map (fun e => opt_header.len e.2)).sum

/-- The extension-header scanning loop of ipv6.parser: while the current
type code is registered, parse one option header at the current offset,
advance by its length, and continue from its nxt field.  The fuel bounds
the iteration count (each iteration consumes at least 8 bytes, so
buf.length + 1 always suffices). -/
def parseChain (buf : List Nat) : Nat → Nat → Nat → Option (List (Nat × opt_header) × Nat × Nat)
  | 0, _, _ => none
  | fuel + 1, last, offset =>
    if last ∈ IPV6_EXT_HEADER_TYPE then
      match opt_header.parser (buf.drop offset) with
      | none => none
      | some hdr =>
        match parseChain buf fuel hdr.nxt (offset + opt_header.len hdr) with
        | none => none
        | some (hdrs, la, off) => some ((last, hdr) :: hdrs, la, off)
    else some ([], last, offset)

/-- ipv6.parser: unpack the fixed 40-byte layout, decompose the first
32-bit word, scan the extension-header chain, and return the constructed
header (built through ipv6.init, hence relinked), the terminal upper-layer
type code, and the payload slice of payload_length bytes. -/
def ipv6.parser (buf : List Nat) : Option (ipv6 × Nat × List Nat) :=
  if buf.length < 40 then none
  else
    let v_tc_flow := fromBytesBE (buf.take 4)
    let payload_length := fromBytesBE ((buf.drop 4).take 2)
    let nxt := (buf.drop 6).headD 0
    let hop_limit := (buf.drop 7).headD 0
    let src := (buf.drop 8).take 16
    let dst := (buf.drop 24).take 16
    let version := v_tc_flow >>> 28
    let traffic_class := (v_tc_flow >>> 20) &&& 0xff
    let flow_label := v_tc_flow &&& 0xfffff
    match parseChain buf (buf.length + 1) nxt 40 with
    | none => none
    | some (ext_hdrs, last, offset) =>
      some (ipv6.init version traffic_class flow_label payload_length last hop_limit
              src dst ext_hdrs,
            last, (buf.drop offset).take payload_length)

/-- Well-formedness of a chain element supplied to the constructor: a
registered type code and an option header whose size and options are
well-formed (its nxt is irrelevant, being overwritten by relinking). -/
def ext_wf (e : Nat × opt_header) : Bool :=
  decide (e.1 ∈ IPV6_EXT_HEADER_TYPE) && decide (e.2.size < 256) &&
  decide (e.2.size % 8 = 0) && e.2.data.all option.wf &&
  decide ((e.2.data.map option.serLen).sum = 6 + e.2.size)

/-- The type code the chain scan starts from: the first element's type, or
u itself for an empty chain. -/
def chainStart (u : Nat) : List (Nat × opt_header) → Nat
  | [] => u
  | (t, _) :: _ => t

/-- The linkage invariant of a constructed chain with final upper-layer
type u: each header's stored nxt is the type code of the next element, or
u at the end. -/
def chainLinked (u : Nat) : List (Nat × opt_header) → Prop
  | [] => True
  | (_, h) :: rest => h.nxt = chainStart u rest ∧ chainLinked u rest

/-- The serialized bytes of a chain. -/
def chainBytes (l : List (Nat × opt_header)) : List Nat :=
  (l.map (fun e => opt_header.serialize e.2)).flatten

/-- The total encoded length of a chain. -/
def chainLen (l : List (Nat × opt_header)) : Nat :=
  (l.map (fun e => opt_header.len e.2)).sum

namespace nx_match

/-- The error kinds of NXMatch.parse: the explicit OFPMalformedMessage
raises, and the struct.error of an unpack beyond the buffer. -/
inductive PError where
  | malformed
  | struct_error
deriving DecidableEq, Repr

/-- ryu.ofproto.nx_match.NXMatch: holder of the 32-bit NXM header word. -/
structure NXMatch where
  header : Nat
deriving DecidableEq, Repr

def NXMatch.vendor (m : NXMatch) : Nat := m.header >>> 16

def NXMatch.field (m : NXMatch) : Nat := (m.header >>> 9) % 0x7f

def NXMatch.type_ (m : NXMatch) : Nat := (m.header >>> 9) % 0x7fffff

def NXMatch.hasmask (m : NXMatch) : Nat := (m.header >>> 8) &&& 1

def NXMatch.length (m : NXMatch) : Nat := m.header &&& 0xff

/-- NXMatch.parse: reject a match_len below 4, unpack the 32-bit header
word at the offset (NXM_HEADER_PACK_STRING is the big-endian 32-bit
format, from ofproto_v1_0 outside this excerpt), and reject a zero
declared payload length or a match_len too small for header plus
payload. -/
def NXMatch.parse (buf : List Nat) (offset match_len : Nat) : Except PError NXMatch :=
  if match_len < 4 then .error .malformed
  else if buf.length < offset + 4 then .error .struct_error
  else
    let instance_ : NXMatch := ⟨fromBytesBE ((buf.drop offset).take 4)⟩
    if instance_.length = 0 ∨ match_len < instance_.length + 4 then .error .malformed
    else .ok instance_

/-- NXMatch.put_header: the packed 32-bit header word and the byte count 4
it returns. -/
def NXMatch.put_header (m : NXMatch) : List Nat × Nat :=
  (toBytesBE 4 m.header, 4)

def UINT64_MAX : Nat := (1 <<< 64) - 1

def FWW_IN_PORT : Nat := 1 <<< 0

def FWW_ALL : Nat := (1 <<< 13) - 1

def MF_PACK_STRING_BE64 : String := "!Q"

def MF_PACK_STRING_BE16 : String := "!H"

/-- struct.calcsize restricted to the integer formats this excerpt
uses. -/
def struct_calcsize (s : String) : Nat :=
  if s = "!Q" then 8
  else if s = "!I" then 4
  else if s = "!H" then 2
  else if s = "!B" then 1
  else 0

/-- ryu.ofproto.nx_match.MFField: a fixed-width match-field packer,
carrying its struct pack format. -/
structure MFField where
  pack_str : String
deriving DecidableEq, Repr

def MFField.n_bytes (f : MFField) : Nat := struct_calcsize f.pack_str

def MFField.n_bits (f : MFField) : Nat := f.n_bytes * 8

/-- MFField._put: pack one value; the bytes written and the returned byte
count n_bytes. -/
def MFField._put (f : MFField) (value : Nat) : List Nat × Nat :=
  (toBytesBE f.n_bytes value, f.n_bytes)

/-- MFField.putw: value then mask, each via _put. -/
def MFField.putw (f : MFField) (value mask : Nat) : List Nat × Nat :=
  ((f._put value).1 ++ (f._put mask).1, (f._put value).2 + (f._put mask).2)

def MFField._is_all_ones (f : MFField) (value : Nat) : Bool :=
  value = (1 <<< f.n_bits) - 1

/-- MFField.putm: the three put policies selected by the mask - omit on a
zero mask, value only on an all-ones mask, value then mask otherwise. -/
def MFField.putm (f : MFField) (value mask : Nat) : List Nat × Nat :=
  if mask = 0 then ([], 0)
  else if f._is_all_ones mask then f._put value
  else f.putw value mask

/-- ryu.ofproto.nx_match.Flow: the concrete field values of a rule (the
fields this excerpt serializes). -/
structure Flow where
  in_port : Nat
  tun_id : Nat
deriving DecidableEq, Repr

/-- ryu.ofproto.nx_match.FlowWildcards: the wildcard bitmask and the
tunnel-id mask. -/
structure FlowWildcards where
  wildcards : Nat
  tun_id_mask : Nat
deriving DecidableEq, Repr

/-- ryu.ofproto.nx_match.ClsRule. -/
structure ClsRule where
  wc : FlowWildcards
  flow : Flow
deriving DecidableEq, Repr

/-- Modelled from the spec: construction of the 32-bit NXM header word
(vendor:16 | field:7 | has-mask:1 | length:8); the numeric NXM_* constants
live in ofproto_v1_0, outside this excerpt. -/
def mk_nxm_header (vendor fieldnum hasmask len : Nat) : Nat :=
  (vendor <<< 16) ||| (fieldnum <<< 9) ||| (hasmask <<< 8) ||| len

def NXM_OF_IN_PORT : Nat := mk_nxm_header 0 0 0 2

def NXM_NX_TUN_ID : Nat := mk_nxm_header 1 16 0 8

def NXM_NX_TUN_ID_W : Nat := mk_nxm_header 1 16 1 16

/-- Modelled from the spec: the field-registry dispatch mf_from_nxm_header
followed by the field's put.  The concrete registered classes (the
in-port field, a 2-byte exact-match value, and the tunnel-id field, an
8-byte value put through the putm mask policy) are outside this
excerpt. -/
def mf_put (header : Nat) (r : ClsRule) : List Nat × Nat :=
  if header = NXM_OF_IN_PORT then MFField._put ⟨MF_PACK_STRING_BE16⟩ r.flow.in_port
  else if header = NXM_NX_TUN_ID ∨ header = NXM_NX_TUN_ID_W then
    MFField.putm ⟨MF_PACK_STRING_BE64⟩ r.flow.tun_id r.wc.tun_id_mask
  else ([], 0)

/-- nxm_put: the NXM header word followed by the field's payload; returns
the bytes and the byte count. -/
def nxm_put (header : Nat) (r : ClsRule) : List Nat × Nat :=
  ((NXMatch.put_header ⟨header⟩).1 ++ (mf_put header r).1,
   (NXMatch.put_header ⟨header⟩).2 + (mf_put header r).2)

/-- round_up: round a length up to a multiple of 8 (Python 2 integer
division). -/
def round_up (length : Nat) : Nat := (length + 7) / 8 * 8

/-- serialize_nxm_match: emit the in-port field when its wildcard bit is
clear, then the tunnel-id field when its mask is nonzero (choosing the
masked or exact NXM header by the mask value), then zero-pad to an 8-byte
boundary.  Returns the appended bytes and the match length, which excludes
the padding.  The Python function writes into a caller buffer at a running
offset; writes are sequential, so the buffer is modelled as the appended
byte list. -/
def serialize_nxm_match (r : ClsRule) : List Nat × Nat :=
  let s0 : List Nat × Nat := ([], 0)
  let s1 :=
    if r.wc.wildcards &&& FWW_IN_PORT = 0 then
      (s0.1 ++ (nxm_put NXM_OF_IN_PORT r).1, s0.2 + (nxm_put NXM_OF_IN_PORT r).2)
    else s0
  let s2 :=
    if r.wc.tun_id_mask ≠ 0 then
      let hdr := if r.wc.tun_id_mask = UINT64_MAX then NXM_NX_TUN_ID else NXM_NX_TUN_ID_W
      (s1.1 ++ (nxm_put hdr r).1, s1.2 + (nxm_put hdr r).2)
    else s1
  (s2.1 ++ List.replicate (round_up s2.2 - s2.2) 0, s2.2)

end nx_match

open nx_match

theorem toBytesBE_length (n v : Nat) : (toBytesBE n v).length = n := by
  induction n generalizing v with
  | zero => rfl
  | succ n ih => simp [toBytesBE, ih]

theorem fromBytesBE_append_singleton (l : List Nat) (b : Nat) :
    fromBytesBE (l ++ [b]) = fromBytesBE l * 256 + b := by
  simp [fromBytesBE]

theorem fromBytesBE_toBytesBE (n v : Nat) :
    fromBytesBE (toBytesBE n v) = v % 2 ^ (8 * n) := by
  induction n generalizing v with
  | zero => simp [toBytesBE, fromBytesBE, Nat.mod_one]
  | succ n ih =>
    rw [toBytesBE, fromBytesBE_append_singleton, ih]
    have h2 : 2 ^ (8 * (n + 1)) = 256 * 2 ^ (8 * n) := by
      rw [Nat.mul_add, Nat.pow_add]
      ring
    rw [h2, Nat.mod_mul]
    ring

theorem fromBytesBE_toBytesBE_of_lt {n v : Nat} (h : v < 2 ^ (8 * n)) :
    fromBytesBE (toBytesBE n v) = v := by
  rw [fromBytesBE_toBytesBE, Nat.mod_eq_of_lt h]

/-- Claim C2 (evaluation at the failing input): for the header word 0xFF00
(field bits 15 through 9 all set, has-mask bit set), the code's field()
returns (0xFF00 >>> 9) % 0x7f = 0, while extracting bits 15 through 9 by
bitmask gives 0x7f; the other accessors do decompose by bit position
(vendor 0, has-mask 1, length 0). -/
theorem claim_C2_thm :
    NXMatch.field ⟨0xFF00⟩ = 0 ∧
    (0xFF00 >>> 9) &&& 0x7f = 0x7f ∧
    NXMatch.field ⟨0xFF00⟩ ≠ (0xFF00 >>> 9) &&& 0x7f ∧
    NXMatch.vendor ⟨0xFF00⟩ = 0 ∧
    NXMatch.hasmask ⟨0xFF00⟩ = 1 ∧
    NXMatch.length ⟨0xFF00⟩ = 0 := by
  refine ⟨by decide, by decide, by decide, by decide, by decide, by decide⟩

/-- Claim C3: the putm policy of MFField with byte width n: a zero mask
writes 0 bytes, an all-ones mask (for the field's bit width 8n) writes the
n value bytes only, any other mask writes the n value bytes then the n
mask bytes (2n bytes); the returned byte count always equals the number of
bytes written. -/
theorem claim_C3_thm (f : MFField) (value mask : Nat) :
    (f.putm value mask).2 = (f.putm value mask).1.length ∧
    (mask = 0 → f.putm value mask = ([], 0)) ∧
    (mask ≠ 0 → mask = 2 ^ f.n_bits - 1 →
      f.putm value mask = (toBytesBE f.n_bytes value, f.n_bytes)) ∧
    (mask ≠ 0 → mask ≠ 2 ^ f.n_bits - 1 →
      f.putm value mask =
        (toBytesBE f.n_bytes value ++ toBytesBE f.n_bytes mask, 2 * f.n_bytes)) := by
  have hall : ∀ b : Nat, ((1 <<< b) - 1 : Nat) = 2 ^ b - 1 := by
    intro b
    rw [Nat.shiftLeft_eq, Nat.one_mul]
  constructor
  · by_cases h0 : mask = 0
    · simp [MFField.putm, h0]
    · by_cases h1 : f._is_all_ones mask
      · simp [MFField.putm, h0, h1, MFField._put, toBytesBE_length]
      · simp [MFField.putm, h0, h1, MFField.putw, MFField._put, toBytesBE_length]
  refine ⟨fun h0 => by simp [MFField.putm, h0], fun h0 h1 => ?_, fun h0 h1 => ?_⟩
  · have : f._is_all_ones mask := by
      simp [MFField._is_all_ones, hall, h1]
    simp [MFField.putm, h0, this, MFField._put]
  · have : ¬ f._is_all_ones mask := by
      simp [MFField._is_all_ones, hall, h1]
    simp [MFField.putm, h0, this, MFField.putw, MFField._put]
    omega

/-- Claim C3 witness: the 8-byte (!Q) field at the three masks of the
claim: all-ones-64 writes 8 bytes, zero writes 0 bytes, 0xFF00 writes 16
bytes. -/
theorem claim_C3_witness :
    ((2 ^ 64 - 1 : Nat) ≠ 0 ∧ (2 ^ 64 - 1 : Nat) = 2 ^ (MFField.n_bits ⟨MF_PACK_STRING_BE64⟩) - 1 ∧
      MFField.putm ⟨MF_PACK_STRING_BE64⟩ 5 (2 ^ 64 - 1) =
        (toBytesBE 8 5, 8)) ∧
    ((0 : Nat) = 0 ∧ MFField.putm ⟨MF_PACK_STRING_BE64⟩ 5 0 = ([], 0)) ∧
    ((0xFF00 : Nat) ≠ 0 ∧ (0xFF00 : Nat) ≠ 2 ^ (MFField.n_bits ⟨MF_PACK_STRING_BE64⟩) - 1 ∧
      MFField.putm ⟨MF_PACK_STRING_BE64⟩ 5 0xFF00 =
        (toBytesBE 8 5 ++ toBytesBE 8 0xFF00, 2 * 8)) := by
  refine ⟨⟨by decide, by decide, ?_⟩, ⟨rfl, ?_⟩, ⟨by decide, by decide, ?_⟩⟩
  · exact (claim_C3_thm ⟨MF_PACK_STRING_BE64⟩ 5 (2 ^ 64 - 1)).2.2.1 (by decide) (by decide)
  · exact (claim_C3_thm ⟨MF_PACK_STRING_BE64⟩ 5 0).2.1 rfl
  · exact (claim_C3_thm ⟨MF_PACK_STRING_BE64⟩ 5 0xFF00).2.2.2 (by decide) (by decide)

theorem packBytes_of_length_eq {n : Nat} {s : List Nat} (h : s.length = n) :
    packBytes n s = s := by
  subst h
  simp [packBytes]

theorem relinkGo_spec (l : List (Nat × opt_header)) (p : Nat × opt_header) :
    (relinkGo p l).map Prod.fst = p.1 :: l.map Prod.fst ∧
    (relinkGo p l).map (fun e => e.2.nxt) = l.map Prod.fst ++ [p.2.nxt] ∧
    (relinkGo p l).map (fun e => (e.2.size, e.2.data)) =
      (p :: l).map (fun e => (e.2.size, e.2.data)) := by
  induction l generalizing p with
  | nil => simp [relinkGo]
  | cons e rest ih =>
    obtain ⟨ih1, ih2, ih3⟩ := ih (e.1, { e.2 with nxt := p.2.nxt })
    refine ⟨?_, ?_, ?_⟩
    · simp [relinkGo, ih1]
    · simp [relinkGo, ih2]
    · simp [relinkGo] at ih3 ⊢
      exact ih3

/-- Claim C4: constructing an ipv6 header with extension headers [A, B] and
original next-header value u establishes the chain linkage: the header's
nxt is A's type code, A's nxt is B's type code, and B's nxt is u. -/
theorem claim_C4_thm (v tc fl pl u hl : Nat) (src dst : List Nat)
    (a b : Nat × opt_header) :
    (ipv6.init v tc fl pl u hl src dst [a, b]).nxt = a.1 ∧
    (ipv6.init v tc fl pl u hl src dst [a, b]).ext_hdrs.map Prod.fst = [a.1, b.1] ∧
    (ipv6.init v tc fl pl u hl src dst [a, b]).ext_hdrs.map (fun e => e.2.nxt) = [b.1, u] := by
  refine ⟨rfl, ?_, ?_⟩ <;> simp [ipv6.init, relinkGo]

/-- Claim C6 (amended): with a non-empty extension-header list, every
extension header's caller-supplied nxt is discarded: each non-last header
is overwritten with its successor's type code, and the last is overwritten
with the header object's original nxt (the upper-layer type); types, sizes
and option data are preserved. -/
theorem claim_C6_thm (v tc fl pl u hl : Nat) (src dst : List Nat)
    (exts : List (Nat × opt_header)) (hne : exts ≠ []) :
    (ipv6.init v tc fl pl u hl src dst exts).ext_hdrs.map Prod.fst = exts.map Prod.fst ∧
    (ipv6.init v tc fl pl u hl src dst exts).ext_hdrs.map (fun e => e.2.nxt) =
      (exts.map Prod.fst).tail ++ [u] ∧
    (ipv6.init v tc fl pl u hl src dst exts).ext_hdrs.map (fun e => (e.2.size, e.2.data)) =
      exts.map (fun e => (e.2.size, e.2.data)) := by
  obtain ⟨e, rest, rfl⟩ := List.exists_cons_of_ne_nil hne
  obtain ⟨h1, h2, h3⟩ := relinkGo_spec rest (e.1, { e.2 with nxt := u })
  refine ⟨?_, ?_, ?_⟩
  · simpa [ipv6.init] using h1
  · simpa [ipv6.init] using h2
  · simpa [ipv6.init] using h3

/-- Claim C6 witness: a two-header chain with caller-supplied nxt values
99 and 77 and original upper-layer type 6. -/
theorem claim_C6_witness :
    ([((0 : Nat), (⟨99, 0, []⟩ : opt_header)), (60, ⟨77, 0, []⟩)] ≠
      ([] : List (Nat × opt_header))) ∧
    (ipv6.init 6 0 0 0 6 64 [] [] [(0, ⟨99, 0, []⟩), (60, ⟨77, 0, []⟩)]).ext_hdrs.map
        Prod.fst = [0, 60] ∧
    (ipv6.init 6 0 0 0 6 64 [] [] [(0, ⟨99, 0, []⟩), (60, ⟨77, 0, []⟩)]).ext_hdrs.map
        (fun e => e.2.nxt) = [60, 6] ∧
    (ipv6.init 6 0 0 0 6 64 [] [] [(0, ⟨99, 0, []⟩), (60, ⟨77, 0, []⟩)]).ext_hdrs.map
        (fun e => (e.2.size, e.2.data)) = [(0, []), (0, [])] := by
  have h := claim_C6_thm 6 0 0 0 6 64 [] [] [(0, ⟨99, 0, []⟩), (60, ⟨77, 0, []⟩)]
    (by decide)
  exact ⟨by decide, h.1, h.2.1, h.2.2⟩

/-- Claim C6 counterexample: the claim as stated says the last extension
header's caller-supplied next-type (here 77) is preserved; the code
overwrites it with the header object's original nxt (here 6). -/
theorem claim_C6_cex :
    (ipv6.init 6 0 0 0 6 64 [] [] [(0, ⟨99, 0, []⟩), (60, ⟨77, 0, []⟩)]).ext_hdrs.map
        (fun e => e.2.nxt) = [60, 6] ∧
    ¬ (ipv6.init 6 0 0 0 6 64 [] [] [(0, ⟨99, 0, []⟩), (60, ⟨77, 0, []⟩)]).ext_hdrs.map
        (fun e => e.2.nxt) = [60, 77] := by
  exact ⟨by decide, by decide⟩

/-- Claim C8: a buffer whose first byte is 0x00 always parses as the
1-byte pad-one option (type 0, length -1, no data) whatever follows; its
encoded length is 1, and the option-scanning loop records the pad option
and advances by exactly one byte. -/
theorem claim_C8_thm (rest : List Nat) (buf : List Nat) (fuel size dl : Nat)
    (h1 : size < dl) (h2 : buf.get? size = some 0) :
    option.parser (0 :: rest) = some ⟨0, -1, none⟩ ∧
    option.len ⟨0, -1, none⟩ = 1 ∧
    parseOpts buf (fuel + 1) size dl =
      (parseOpts buf fuel (size + 1) dl).map (fun p => (⟨0, -1, none⟩ :: p.1, p.2)) := by
  refine ⟨by simp [option.parser], by decide, ?_⟩
  rw [parseOpts, if_pos h1, h2]
  simp only [if_pos rfl]
  cases hp : parseOpts buf fuel (size + 1) dl with
  | none => simp
  | some p =>
    cases p
    simp

/-- Claim C8 witness: the buffer [0x00, 0xFF] at offset 0. -/
theorem claim_C8_witness :
    (0 : Nat) < 1 ∧ [(0 : Nat), 255].get? 0 = some 0 ∧
    option.parser (0 :: [255]) = some ⟨0, -1, none⟩ ∧
    option.len ⟨0, -1, none⟩ = 1 ∧
    parseOpts [0, 255] (1 + 1) 0 1 =
      (parseOpts [0, 255] 1 (0 + 1) 1).map (fun p => (⟨0, -1, none⟩ :: p.1, p.2)) := by
  have h := claim_C8_thm [255] [0, 255] 1 0 1 (by decide) (by decide)
  exact ⟨by decide, by decide, h.1, h.2.1, h.2.2⟩

theorem option.wf_pad {o : option} (ht : o.type_ = 0) (h : option.wf o = true) :
    o = ⟨0, -1, none⟩ := by
  simp [option.wf, ht] at h
  obtain ⟨t, l, d⟩ := o
  simp_all

theorem option.wf_val_none {o : option} (ht : o.type_ ≠ 0) (hd : o.data = none)
    (h : option.wf o = true) : o.type_ < 256 ∧ o.len_ = 0 := by
  simp [option.wf, ht, hd] at h
  exact h

theorem option.wf_val_some {o : option} {d : List Nat} (ht : o.type_ ≠ 0)
    (hd : o.data = some d) (h : option.wf o = true) :
    o.type_ < 256 ∧ 0 < o.len_ ∧ o.len_ < 256 ∧ (d.length : Int) = o.len_ ∧
      ∀ b ∈ d, b < 256 := by
  simp [option.wf, ht, hd] at h
  tauto

theorem option.serialize_length (o : option) (h : option.wf o = true) :
    (o.serialize).length = o.serLen := by
  by_cases ht : o.type_ = 0
  · rw [option.wf_pad ht h]
    decide
  · cases hd : o.data with
    | none =>
      obtain ⟨-, h2⟩ := option.wf_val_none ht hd h
      simp [option.serialize, ht, h2, option.serLen]
    | some d =>
      obtain ⟨-, h2, h3, h4, -⟩ := option.wf_val_some ht hd h
      have hne : o.len_ ≠ 0 := by omega
      have hdl : d.length = o.len_.toNat := by omega
      have hs : o.serialize = [o.type_ % 256, o.len_.toNat % 256] ++ packBytes o.len_.toNat d := by
        simp [option.serialize, ht, hne, hd]
      rw [hs, packBytes_of_length_eq hdl]
      simp [option.serLen, hdl]
      omega

/-- Claim C10: for every well-formed option, the number of bytes produced
by serialize equals the value of __len__ = 2 + len_: 1 byte for the
pad-one form, 2 bytes for a zero length, 2 + length bytes otherwise. -/
theorem claim_C10_thm (o : option) (h : option.wf o = true) :
    ((o.serialize).length : Int) = option.len o ∧
    (o.type_ = 0 → (o.serialize).length = 1) ∧
    (o.type_ ≠ 0 → o.len_ = 0 → (o.serialize).length = 2) ∧
    (o.type_ ≠ 0 → 0 < o.len_ → ((o.serialize).length : Int) = 2 + o.len_) := by
  have hlen := option.serialize_length o h
  by_cases ht : o.type_ = 0
  · have he := option.wf_pad ht h
    subst he
    exact ⟨by decide, fun _ => by decide, fun hc => absurd rfl hc, fun hc => absurd rfl hc⟩
  · have hnn : 0 ≤ o.len_ := by
      cases hd : o.data with
      | none =>
        have h2 := (option.wf_val_none ht hd h).2
        omega
      | some d =>
        have h2 := (option.wf_val_some ht hd h).2.1
        omega
    refine ⟨?_, fun hc => absurd hc ht, fun _ h0 => ?_, fun _ _ => ?_⟩ <;>
      rw [hlen] <;> simp [option.serLen, option.len] <;> omega

/-- Claim C10 witness: the option (type 1, length 2, data [9, 9]). -/
theorem claim_C10_witness :
    option.wf ⟨1, 2, some [9, 9]⟩ = true ∧
    ((option.serialize ⟨1, 2, some [9, 9]⟩).length : Int) = option.len ⟨1, 2, some [9, 9]⟩ := by
  exact ⟨by decide, (claim_C10_thm ⟨1, 2, some [9, 9]⟩ (by decide)).1⟩

/-- Claim C9: when the buffer holds the 4 header bytes at the offset,
NXMatch.parse raises the malformed-message error exactly when match_len is
below 4, or the payload length declared in the low 8 bits of the header
word is 0, or match_len is below that payload length plus 4; otherwise it
returns an NXMatch instance holding the unpacked 32-bit header word. -/
theorem claim_C9_thm (buf : List Nat) (offset match_len : Nat)
    (h : offset + 4 ≤ buf.length) :
    (NXMatch.parse buf offset match_len = .error .malformed ↔
      (match_len < 4 ∨
        NXMatch.length ⟨fromBytesBE ((buf.drop offset).take 4)⟩ = 0 ∨
        match_len < NXMatch.length ⟨fromBytesBE ((buf.drop offset).take 4)⟩ + 4)) ∧
    (¬ (match_len < 4 ∨
        NXMatch.length ⟨fromBytesBE ((buf.drop offset).take 4)⟩ = 0 ∨
        match_len < NXMatch.length ⟨fromBytesBE ((buf.drop offset).take 4)⟩ + 4) →
      NXMatch.parse buf offset match_len =
        .ok ⟨fromBytesBE ((buf.drop offset).take 4)⟩) := by
  have hb : ¬ buf.length < offset + 4 := by omega
  by_cases h4 : match_len < 4
  · simp [NXMatch.parse, h4]
  · by_cases hz : NXMatch.length ⟨fromBytesBE ((buf.drop offset).take 4)⟩ = 0 ∨
        match_len < NXMatch.length ⟨fromBytesBE ((buf.drop offset).take 4)⟩ + 4
    · simp [NXMatch.parse, h4, hb, hz]
    · simp [NXMatch.parse, h4, hb, hz]

/-- Claim C9 witness: a 12-byte buffer whose header word declares an
8-byte payload, parsed with match_len 12. -/
theorem claim_C9_witness :
    (0 : Nat) + 4 ≤ [0, 0, 2, 8, 0, 0, 0, 0, 0, 0, 0, 0].length ∧
    ((NXMatch.parse [0, 0, 2, 8, 0, 0, 0, 0, 0, 0, 0, 0] 0 12 = .error .malformed ↔
      ((12 : Nat) < 4 ∨
        NXMatch.length ⟨fromBytesBE (([(0 : Nat), 0, 2, 8, 0, 0, 0, 0, 0, 0, 0, 0].drop 0).take 4)⟩ = 0 ∨
        12 < NXMatch.length ⟨fromBytesBE (([(0 : Nat), 0, 2, 8, 0, 0, 0, 0, 0, 0, 0, 0].drop 0).take 4)⟩ + 4)) ∧
    (¬ ((12 : Nat) < 4 ∨
        NXMatch.length ⟨fromBytesBE (([(0 : Nat), 0, 2, 8, 0, 0, 0, 0, 0, 0, 0, 0].drop 0).take 4)⟩ = 0 ∨
        12 < NXMatch.length ⟨fromBytesBE (([(0 : Nat), 0, 2, 8, 0, 0, 0, 0, 0, 0, 0, 0].drop 0).take 4)⟩ + 4) →
      NXMatch.parse [0, 0, 2, 8, 0, 0, 0, 0, 0, 0, 0, 0] 0 12 =
        .ok ⟨fromBytesBE (([(0 : Nat), 0, 2, 8, 0, 0, 0, 0, 0, 0, 0, 0].drop 0).take 4)⟩)) := by
  exact ⟨by decide, claim_C9_thm [0, 0, 2, 8, 0, 0, 0, 0, 0, 0, 0, 0] 0 12 (by decide)⟩

/-- Claim C5 (amended): an option-bearing extension header with declared
size field s has total encoded length - the value of __len__ that the
chain loop consumes - equal to 8 + s bytes (not 8 + 8 x s); a successful
parse stores the second buffer byte as the size. -/
theorem claim_C5_thm (h : opt_header) (buf : List Nat)
    (hp : opt_header.parser buf = some h) :
    opt_header.len h = 8 + h.size ∧
    h.size = buf.getD 1 0 ∧
    opt_header.len h = 8 + buf.getD 1 0 := by
  match buf with
  | [] => simp [opt_header.parser] at hp
  | [a] => simp [opt_header.parser] at hp
  | nxt :: len_ :: rest =>
    refine ⟨rfl, ?_, ?_⟩ <;>
    · simp only [opt_header.parser] at hp
      cases hpo : parseOpts (nxt :: len_ :: rest) (8 + len_) 2 (8 + len_) with
      | none => rw [hpo] at hp; simp at hp
      | some p =>
        rw [hpo] at hp
        obtain ⟨opts, s⟩ := p
        by_cases h8 : len_ % 8 = 0
        · simp [h8] at hp
          simp [← hp, opt_header.len]
        · simp [h8] at hp

/-- Claim C5 witness: the buffer [59, 0] followed by six pad bytes parses
to a header of declared size 0 and total length 8 + 0 = 8. -/
theorem claim_C5_witness :
    opt_header.parser [59, 0, 0, 0, 0, 0, 0, 0] =
      some ⟨59, 0, List.replicate 6 ⟨0, -1, none⟩⟩ ∧
    opt_header.len ⟨59, 0, List.replicate 6 ⟨0, -1, none⟩⟩ = 8 + 0 ∧
    (⟨59, 0, List.replicate 6 ⟨0, -1, none⟩⟩ : opt_header).size =
      [59, 0, 0, 0, 0, 0, 0, 0].getD 1 0 := by
  have h := claim_C5_thm ⟨59, 0, List.replicate 6 ⟨0, -1, none⟩⟩
    [59, 0, 0, 0, 0, 0, 0, 0] (by decide)
  exact ⟨by decide, h.1, h.2.1⟩

/-- Claim C5 counterexample: the claim as stated gives an option header of
declared size 8 a total length of 8 + 8 x 8 = 72 bytes; the code computes
8 + 8 = 16 (__len__ and the bytes consumed by the chain loop alike). -/
theorem claim_C5_cex :
    (opt_header.parser ([59, 8] ++ List.replicate 14 0)).map opt_header.len = some 16 ∧
    ¬ (opt_header.parser ([59, 8] ++ List.replicate 14 0)).map opt_header.len =
        some (8 + 8 * 8) := by
  exact ⟨by decide, by decide⟩

theorem putm_length (f : MFField) (value mask : Nat) :
    ((f.putm value mask).1).length = (f.putm value mask).2 := by
  unfold MFField.putm MFField.putw MFField._put
  split_ifs <;> simp [toBytesBE_length]

theorem mf_put_length (hdr : Nat) (r : ClsRule) :
    ((mf_put hdr r).1).length = (mf_put hdr r).2 := by
  unfold mf_put
  split_ifs
  · simp [MFField._put, toBytesBE_length]
  · exact putm_length _ _ _
  · rfl

theorem nxm_put_length (hdr : Nat) (r : ClsRule) :
    ((nxm_put hdr r).1).length = (nxm_put hdr r).2 := by
  simp [nxm_put, NXMatch.put_header, toBytesBE_length, mf_put_length]

theorem serialize_nxm_match_spec (r : ClsRule) :
    ∃ E : List Nat, E.length = (serialize_nxm_match r).2 ∧
      (serialize_nxm_match r).1 =
        E ++ List.replicate
          (round_up (serialize_nxm_match r).2 - (serialize_nxm_match r).2) 0 := by
  have hU : UINT64_MAX ≠ 0 := by decide
  unfold serialize_nxm_match
  by_cases c1 : r.wc.wildcards &&& FWW_IN_PORT = 0 <;>
    by_cases c2 : r.wc.tun_id_mask ≠ 0 <;>
      by_cases c3 : r.wc.tun_id_mask = UINT64_MAX <;>
        refine ⟨_, ?_, rfl⟩ <;>
        simp [c1, c2, c3, hU, nxm_put_length]

/-- Claim C7: serialize_nxm_match returns the match length reached before
padding; the emitted buffer is the significant fields followed by exactly
round_up(offset) - offset zero bytes, so its total length is the offset
rounded up to a multiple of 8.  In particular a match length of 5 gives 3
zero bytes of padding and a total of 8 (round_up 5 = 8). -/
theorem claim_C7_thm (r : ClsRule) :
    ((serialize_nxm_match r).1).length = round_up (serialize_nxm_match r).2 ∧
    ((serialize_nxm_match r).1).drop (serialize_nxm_match r).2 =
      List.replicate (round_up (serialize_nxm_match r).2 - (serialize_nxm_match r).2) 0 ∧
    (serialize_nxm_match r).2 ≤ ((serialize_nxm_match r).1).length ∧
    round_up 5 - 5 = 3 ∧ round_up 5 = 8 := by
  obtain ⟨E, hEl, hEq⟩ := serialize_nxm_match_spec r
  have hru : (serialize_nxm_match r).2 ≤ round_up (serialize_nxm_match r).2 := by
    unfold round_up
    omega
  refine ⟨?_, ?_, ?_, by decide, by decide⟩
  · rw [hEq]
    simp [hEl]
    omega
  · rw [hEq, List.drop_left' hEl]
  · rw [hEq]
    simp [hEl]

theorem option.serLen_pos (o : option) (h : option.wf o = true) : 1 ≤ o.serLen := by
  by_cases ht : o.type_ = 0
  · rw [option.wf_pad ht h]
    decide
  · cases hd : o.data with
    | none =>
      have h2 := (option.wf_val_none ht hd h).2
      simp [option.serLen]
      omega
    | some d =>
      have h2 := (option.wf_val_some ht hd h).2.1
      simp [option.serLen]
      omega

theorem option.parser_serialize (o : option) (h : option.wf o = true) (rest : List Nat) :
    option.parser (o.serialize ++ rest) = some o := by
  by_cases ht : o.type_ = 0
  · rw [option.wf_pad ht h]
    simp [option.serialize, option.parser]
  · cases hd : o.data with
    | none =>
      obtain ⟨h1, h2⟩ := option.wf_val_none ht hd h
      have hmod : o.type_ % 256 = o.type_ := Nat.mod_eq_of_lt h1
      have hs : o.serialize = [o.type_ % 256, 0] := by
        simp [option.serialize, ht, h2]
      have he : (⟨o.type_, (0 : Int), none⟩ : option) = o := by
        rw [← h2, ← hd]
      have hp : option.parser (o.type_ :: 0 :: rest) = some ⟨o.type_, (0 : Int), none⟩ := by
        simp [option.parser, ht]
      rw [hs, hmod]
      simp only [List.cons_append, List.nil_append]
      rw [hp]
      exact congrArg some he
    | some d =>
      obtain ⟨h1, h2, h3, h4, -⟩ := option.wf_val_some ht hd h
      have hne : o.len_ ≠ 0 := by omega
      have hmodt : o.type_ % 256 = o.type_ := Nat.mod_eq_of_lt h1
      have hmodl : o.len_.toNat % 256 = o.len_.toNat := Nat.mod_eq_of_lt (by omega)
      have hdl : d.length = o.len_.toNat := by omega
      have hlne : o.len_.toNat ≠ 0 := by omega
      have hs : o.serialize = o.type_ :: o.len_.toNat :: d := by
        simp [option.serialize, ht, hne, hd, hmodt, hmodl, packBytes_of_length_eq hdl]
      have hsize : o.len_.toNat ≤ (d ++ rest).length := by
        simp
        omega
      have hc : ((o.len_.toNat : Nat) : Int) = o.len_ := by omega
      have he : (⟨o.type_, (o.len_.toNat : Int), some d⟩ : option) = o := by
        rw [hc, ← hd]
      have hp : option.parser (o.type_ :: o.len_.toNat :: (d ++ rest)) =
          some ⟨o.type_, (o.len_.toNat : Int), some ((d ++ rest).take o.len_.toNat)⟩ := by
        simp [option.parser, ht, hlne, hsize]
        omega
      rw [hs]
      simp only [List.cons_append]
      rw [hp, List.take_left' hdl]
      exact congrArg some he

theorem get?_of_drop_cons {buf tl : List Nat} {n x : Nat}
    (h : buf.drop n = x :: tl) : buf.get? n = some x := by
  have hlen : n < buf.length := by
    have := congrArg List.length h
    simp [List.length_drop] at this
    omega
  rw [List.drop_eq_getElem_cons hlen] at h
  injection h with h1 h2
  rw [List.get?_eq_getElem?, List.getElem?_eq_getElem hlen, h1]

theorem option.serialize_cons (o : option) (h : option.wf o = true) (ht : o.type_ ≠ 0) :
    ∃ tl, o.serialize = o.type_ :: tl := by
  cases hd : o.data with
  | none =>
    obtain ⟨h1, h2⟩ := option.wf_val_none ht hd h
    exact ⟨[0], by simp [option.serialize, ht, h2, Nat.mod_eq_of_lt h1]⟩
  | some d =>
    obtain ⟨h1, h2, h3, h4, -⟩ := option.wf_val_some ht hd h
    have hne : o.len_ ≠ 0 := by omega
    exact ⟨o.len_.toNat % 256 :: packBytes o.len_.toNat d,
      by simp [option.serialize, ht, hne, hd, Nat.mod_eq_of_lt h1]⟩

theorem parseOpts_serialized (opts : List option) :
    ∀ (buf rest : List Nat) (size fuel : Nat),
      (∀ o ∈ opts, option.wf o = true) →
      buf.drop size = (opts.map option.serialize).flatten ++ rest →
      opts.length ≤ fuel →
      parseOpts buf fuel size (size + (opts.map option.serLen).sum) =
        some (opts, size + (opts.map option.serLen).sum) := by
  induction opts with
  | nil =>
    intro buf rest size fuel _ _ _
    cases fuel with
    | zero => simp [parseOpts]
    | succ f => simp [parseOpts]
  | cons o os ih =>
    intro buf rest size fuel hwf hdrop hfuel
    cases fuel with
    | zero => simp at hfuel
    | succ f =>
      have hwo : option.wf o = true := hwf o (List.mem_cons_self o os)
      have hwos : ∀ x ∈ os, option.wf x = true := fun x hx => hwf x (List.mem_cons_of_mem o hx)
      have hpos := option.serLen_pos o hwo
      have hserlen := option.serialize_length o hwo
      have hfuel2 : os.length ≤ f := by simp at hfuel; omega
      rw [List.map_cons, List.flatten_cons, List.append_assoc] at hdrop
      have hdrop2 : buf.drop (size + o.serLen) = (os.map option.serialize).flatten ++ rest := by
        rw [← List.drop_drop, hdrop, List.drop_left' hserlen]
      by_cases ht : o.type_ = 0
      · have he := option.wf_pad ht hwo
        subst he
        have hx : buf.drop size = 0 :: ((os.map option.serialize).flatten ++ rest) := by
          rw [hdrop]
          rfl
        have hget : buf.get? size = some 0 := get?_of_drop_cons hx
        have hdl : size + (((⟨0, -1, none⟩ : option) :: os).map option.serLen).sum
            = (size + 1) + (os.map option.serLen).sum := by
          simp [option.serLen]
          omega
        have hlt : size < (size + 1) + (os.map option.serLen).sum := by omega
        rw [hdl]
        rw [parseOpts, if_pos hlt, hget]
        rw [ih buf rest (size + 1) f hwos (by simpa using hdrop2) hfuel2]
        simp
      · obtain ⟨tl, hser⟩ := option.serialize_cons o hwo ht
        have hx : buf.drop size =
            o.type_ :: (tl ++ ((os.map option.serialize).flatten ++ rest)) := by
          rw [hdrop, hser]
          rfl
        have hget : buf.get? size = some o.type_ := get?_of_drop_cons hx
        have hdl : size + ((o :: os).map option.serLen).sum
            = (size + o.serLen) + (os.map option.serLen).sum := by
          simp [List.map_cons, List.sum_cons]
          omega
        have hlt : size < (size + o.serLen) + (os.map option.serLen).sum := by omega
        rw [hdl]
        rw [parseOpts, if_pos hlt, hget]
        simp only [ht, if_false, ite_false]
        rw [hdrop, option.parser_serialize o hwo _]
        have hrec := ih buf rest (size + o.serLen) f hwos hdrop2 hfuel2
        simp [hrec]

theorem length_le_sum_serLen (l : List option) (h : ∀ o ∈ l, option.wf o = true) :
    l.length ≤ (l.map option.serLen).sum := by
  induction l with
  | nil => simp
  | cons o os ih =>
    have h1 := option.serLen_pos o (h o (List.mem_cons_self o os))
    have h2 := ih (fun x hx => h x (List.mem_cons_of_mem o hx))
    simp only [List.length_cons, List.map_cons, List.sum_cons]
    omega

theorem opt_header.wf_parts (h : opt_header) (hw : opt_header.wf h = true) :
    h.nxt < 256 ∧ h.size < 256 ∧ h.size % 8 = 0 ∧ (∀ o ∈ h.data, option.wf o = true) ∧
      (h.data.map option.serLen).sum = 6 + h.size := by
  simp [opt_header.wf] at hw
  tauto

theorem opt_header.serialize_as_cons (h : opt_header) (hw : opt_header.wf h = true) :
    h.serialize = h.nxt :: h.size :: (h.data.map option.serialize).flatten := by
  obtain ⟨h1, h2, -, -, -⟩ := opt_header.wf_parts h hw
  simp [opt_header.serialize, Nat.mod_eq_of_lt h1, Nat.mod_eq_of_lt h2]

theorem opt_header.flatten_length (h : opt_header) (hw : opt_header.wf h = true) :
    ((h.data.map option.serialize).flatten).length = 6 + h.size := by
  obtain ⟨-, -, -, h4, h5⟩ := opt_header.wf_parts h hw
  rw [List.length_flatten, List.map_map]
  have he : h.data.map (List.length ∘ option.serialize) = h.data.map option.serLen :=
    List.map_congr_left (fun a ha => option.serialize_length a (h4 a ha))
  rw [he, h5]

theorem opt_header.serialize_len (h : opt_header) (hw : opt_header.wf h = true) :
    (h.serialize).length = opt_header.len h := by
  rw [opt_header.serialize_as_cons h hw]
  simp [opt_header.flatten_length h hw, opt_header.len]
  omega

theorem opt_header.parser_of_ser (h : opt_header) (hw : opt_header.wf h = true)
    (rest : List Nat) :
    opt_header.parser (h.serialize ++ rest) = some h := by
  obtain ⟨h1, h2, h3, h4, h5⟩ := opt_header.wf_parts h hw
  rw [opt_header.serialize_as_cons h hw]
  simp only [List.cons_append]
  rw [opt_header.parser]
  have hdl : 8 + h.size = 2 + (h.data.map option.serLen).sum := by omega
  have hdrop : (h.nxt :: h.size :: ((h.data.map option.serialize).flatten ++ rest)).drop 2 =
      (h.data.map option.serialize).flatten ++ rest := rfl
  have hfuel : h.data.length ≤ 8 + h.size := by
    have := length_le_sum_serLen h.data h4
    omega
  have hpo := parseOpts_serialized h.data
    (h.nxt :: h.size :: ((h.data.map option.serialize).flatten ++ rest)) rest 2
    (8 + h.size) h4 hdrop hfuel
  rw [show (2 : Nat) + (h.data.map option.serLen).sum = 8 + h.size by omega] at hpo
  rw [hpo]
  simp [h3]

theorem chainStart_cons (u : Nat) (e : Nat × opt_header) (l : List (Nat × opt_header)) :
    chainStart u (e :: l) = e.1 := by
  obtain ⟨t, h⟩ := e
  rfl

theorem chainStart_relinkGo (u : Nat) (p : Nat × opt_header) (l : List (Nat × opt_header)) :
    chainStart u (relinkGo p l) = p.1 := by
  cases l with
  | nil => rfl
  | cons e rest => rfl

theorem registry_lt {t : Nat} (h : t ∈ IPV6_EXT_HEADER_TYPE) : t < 256 := by
  simp [IPV6_EXT_HEADER_TYPE] at h
  rcases h with rfl | rfl <;> omega

theorem relinkGo_linked (l : List (Nat × opt_header)) :
    ∀ (t : Nat) (h : opt_header) (u : Nat),
      chainLinked u ((t, h) :: l) →
      relinkGo (t, { h with nxt := u }) l = (t, h) :: l := by
  induction l with
  | nil =>
    intro t h u hc
    obtain ⟨h1, -⟩ := hc
    simp only [chainStart] at h1
    simp [relinkGo]
    rw [← h1]
  | cons e rest ih =>
    intro t h u hc
    obtain ⟨t2, h2⟩ := e
    obtain ⟨h1, hc2⟩ := hc
    simp only [chainStart] at h1
    simp only [relinkGo]
    rw [ih t2 h2 u hc2, ← h1]

theorem relinkGo_linkage (l : List (Nat × opt_header)) :
    ∀ p : Nat × opt_header, chainLinked p.2.nxt (relinkGo p l) := by
  induction l with
  | nil =>
    intro p
    exact ⟨rfl, trivial⟩
  | cons e rest ih =>
    intro p
    refine ⟨?_, ?_⟩
    · show ({ p.2 with nxt := e.1 }).nxt = chainStart p.2.nxt (relinkGo (e.1, { e.2 with nxt := p.2.nxt }) rest)
      rw [chainStart_relinkGo]
    · exact ih (e.1, { e.2 with nxt := p.2.nxt })

theorem ext_wf_parts (e : Nat × opt_header) (h : ext_wf e = true) :
    e.1 ∈ IPV6_EXT_HEADER_TYPE ∧ e.2.size < 256 ∧ e.2.size % 8 = 0 ∧
      (∀ o ∈ e.2.data, option.wf o = true) ∧
      (e.2.data.map option.serLen).sum = 6 + e.2.size := by
  simp [ext_wf] at h
  tauto

theorem opt_header.wf_of_ext_wf {e : Nat × opt_header} (h : ext_wf e = true)
    (hn : e.2.nxt < 256) : opt_header.wf e.2 = true := by
  obtain ⟨-, h2, h3, h4, h5⟩ := ext_wf_parts e h
  simp [opt_header.wf]
  tauto

theorem ext_wf_set_nxt (t : Nat) (h : opt_header) (x : Nat) :
    ext_wf (t, { h with nxt := x }) = ext_wf (t, h) := rfl

theorem relinkGo_wf (l : List (Nat × opt_header)) :
    ∀ p : Nat × opt_header, ext_wf p = true → (∀ e ∈ l, ext_wf e = true) →
      p.2.nxt < 256 →
      ∀ f ∈ relinkGo p l, f.1 ∈ IPV6_EXT_HEADER_TYPE ∧ opt_header.wf f.2 = true := by
  induction l with
  | nil =>
    intro p hp _ hn f hf
    simp [relinkGo] at hf
    subst hf
    exact ⟨(ext_wf_parts _ hp).1, opt_header.wf_of_ext_wf hp hn⟩
  | cons e rest ih =>
    intro p hp hl hn f hf
    simp only [relinkGo, List.mem_cons] at hf
    have he : ext_wf e = true := hl e (List.mem_cons_self e rest)
    rcases hf with rfl | hf
    · constructor
      · exact (ext_wf_parts p hp).1
      · exact @opt_header.wf_of_ext_wf (p.1, { p.2 with nxt := e.1 })
          (by rw [ext_wf_set_nxt]; exact hp)
          (registry_lt (ext_wf_parts e he).1)
    · refine ih (e.1, { e.2 with nxt := p.2.nxt }) ?_
        (fun x hx => hl x (List.mem_cons_of_mem e hx)) hn f hf
      rw [ext_wf_set_nxt]
      exact he

theorem chainBytes_cons (e : Nat × opt_header) (l : List (Nat × opt_header)) :
    chainBytes (e :: l) = opt_header.serialize e.2 ++ chainBytes l := by
  simp [chainBytes]

theorem chainLen_cons (e : Nat × opt_header) (l : List (Nat × opt_header)) :
    chainLen (e :: l) = opt_header.len e.2 + chainLen l := by
  simp [chainLen]

theorem chainBytes_length (l : List (Nat × opt_header))
    (h : ∀ e ∈ l, opt_header.wf e.2 = true) :
    (chainBytes l).length = chainLen l := by
  induction l with
  | nil => rfl
  | cons e rest ih =>
    rw [chainBytes_cons, chainLen_cons]
    simp only [List.length_append]
    rw [opt_header.serialize_len e.2 (h e (List.mem_cons_self e rest)),
      ih (fun x hx => h x (List.mem_cons_of_mem e hx))]

theorem chainLen_ge_length (l : List (Nat × opt_header)) : l.length ≤ chainLen l := by
  induction l with
  | nil => simp [chainLen]
  | cons e rest ih =>
    rw [chainLen_cons]
    simp only [List.length_cons, opt_header.len]
    omega

theorem parseChain_serialized (L : List (Nat × opt_header)) :
    ∀ (u : Nat) (buf rest : List Nat) (offset fuel : Nat),
      (∀ e ∈ L, e.1 ∈ IPV6_EXT_HEADER_TYPE ∧ opt_header.wf e.2 = true) →
      chainLinked u L →
      u ∉ IPV6_EXT_HEADER_TYPE →
      buf.drop offset = chainBytes L ++ rest →
      L.length + 1 ≤ fuel →
      parseChain buf fuel (chainStart u L) offset =
        some (L, u, offset + chainLen L) := by
  induction L with
  | nil =>
    intro u buf rest offset fuel _ _ hu _ hfuel
    cases fuel with
    | zero => omega
    | succ f =>
      simp [parseChain, chainStart, hu, chainLen]
  | cons e L ih =>
    intro u buf rest offset fuel hwf hlink hu hdrop hfuel
    obtain ⟨t, h⟩ := e
    cases fuel with
    | zero => simp at hfuel
    | succ f =>
      obtain ⟨hl1, hl2⟩ := hlink
      have ht : t ∈ IPV6_EXT_HEADER_TYPE := (hwf (t, h) (List.mem_cons_self _ _)).1
      have hw : opt_header.wf h = true := (hwf (t, h) (List.mem_cons_self _ _)).2
      have hwL : ∀ x ∈ L, x.1 ∈ IPV6_EXT_HEADER_TYPE ∧ opt_header.wf x.2 = true :=
        fun x hx => hwf x (List.mem_cons_of_mem _ hx)
      rw [chainBytes_cons] at hdrop
      simp only at hdrop
      rw [List.append_assoc] at hdrop
      have hdrop2 : buf.drop (offset + opt_header.len h) = chainBytes L ++ rest := by
        rw [← List.drop_drop, hdrop,
          List.drop_left' (opt_header.serialize_len h hw)]
      rw [chainStart_cons]
      rw [parseChain]
      simp only [if_pos ht]
      rw [hdrop, opt_header.parser_of_ser h hw _]
      have hrec := ih u buf rest (offset + opt_header.len h) f hwL hl2 hu hdrop2
        (by simp at hfuel; omega)
      rw [← hl1] at hrec
      have hgoal : chainLen ((t, h) :: L) = opt_header.len h + chainLen L :=
        chainLen_cons (t, h) L
      rw [hgoal, ← Nat.add_assoc]
      simp [hrec]

theorem lor_shiftLeft_eq_add {k : Nat} (a : Nat) {b : Nat} (hb : b < 2 ^ k) :
    a <<< k ||| b = a * 2 ^ k + b := by
  rw [Nat.shiftLeft_eq, Nat.mul_comm a (2 ^ k), ← Nat.mul_add_lt_is_or hb]

theorem ipv6.init_fields (v tc fl pl u hl : Nat) (src dst : List Nat)
    (l : List (Nat × opt_header)) :
    (ipv6.init v tc fl pl u hl src dst l).version = v ∧
    (ipv6.init v tc fl pl u hl src dst l).traffic_class = tc ∧
    (ipv6.init v tc fl pl u hl src dst l).flow_label = fl ∧
    (ipv6.init v tc fl pl u hl src dst l).payload_length = pl ∧
    (ipv6.init v tc fl pl u hl src dst l).hop_limit = hl ∧
    (ipv6.init v tc fl pl u hl src dst l).src = src ∧
    (ipv6.init v tc fl pl u hl src dst l).dst = dst ∧
    (ipv6.init v tc fl pl u hl src dst l).nxt = chainStart u l := by
  cases l with
  | nil => exact ⟨rfl, rfl, rfl, rfl, rfl, rfl, rfl, rfl⟩
  | cons e rest =>
    obtain ⟨t, h⟩ := e
    exact ⟨rfl, rfl, rfl, rfl, rfl, rfl, rfl, rfl⟩

theorem ipv6.init_ext (v tc fl pl u hl : Nat) (src dst : List Nat)
    (l : List (Nat × opt_header)) :
    chainLinked u (ipv6.init v tc fl pl u hl src dst l).ext_hdrs ∧
    chainStart u (ipv6.init v tc fl pl u hl src dst l).ext_hdrs =
      (ipv6.init v tc fl pl u hl src dst l).nxt := by
  cases l with
  | nil => exact ⟨trivial, rfl⟩
  | cons e rest =>
    obtain ⟨t, h⟩ := e
    constructor
    · exact relinkGo_linkage rest (t, { h with nxt := u })
    · show chainStart u (relinkGo (t, { h with nxt := u }) rest) = t
      rw [chainStart_relinkGo]

theorem ipv6.init_ext_wf (v tc fl pl u hl : Nat) (src dst : List Nat)
    (l : List (Nat × opt_header)) (hw : ∀ e ∈ l, ext_wf e = true) (hu : u < 256) :
    ∀ f ∈ (ipv6.init v tc fl pl u hl src dst l).ext_hdrs,
      f.1 ∈ IPV6_EXT_HEADER_TYPE ∧ opt_header.wf f.2 = true := by
  cases l with
  | nil =>
    intro f hf
    simp [ipv6.init] at hf
  | cons e rest =>
    obtain ⟨t, h⟩ := e
    intro f hf
    refine relinkGo_wf rest (t, { h with nxt := u }) ?_ ?_ hu f hf
    · rw [ext_wf_set_nxt]
      exact hw (t, h) (List.mem_cons_self _ _)
    · exact fun x hx => hw x (List.mem_cons_of_mem _ hx)

theorem ipv6.init_relink_fixpoint (v tc fl pl u hl : Nat) (src dst : List Nat)
    (L : List (Nat × opt_header)) (hL : chainLinked u L) :
    ipv6.init v tc fl pl u hl src dst L =
      ⟨v, tc, fl, pl, chainStart u L, hl, src, dst, L⟩ := by
  cases L with
  | nil => rfl
  | cons l1 lr =>
    obtain ⟨t, h⟩ := l1
    simp only [ipv6.init, chainStart]
    rw [relinkGo_linked lr t h u hL]

theorem ipv6.serialize_decomp (h : ipv6) (hn : h.nxt < 256) (hh : h.hop_limit < 256)
    (hs : h.src.length = 16) (hd : h.dst.length = 16) (payload : List Nat) :
    h.serialize ++ payload =
      toBytesBE 4 (h.version <<< 28 ||| h.traffic_class <<< 20 ||| h.flow_label <<< 12) ++
      (toBytesBE 2 h.payload_length ++
        ([h.nxt] ++
          ([h.hop_limit] ++
            (h.src ++ (h.dst ++ (chainBytes h.ext_hdrs ++ payload)))))) := by
  rw [ipv6.serialize]
  rw [packBytes_of_length_eq hs, packBytes_of_length_eq hd,
    Nat.mod_eq_of_lt hn, Nat.mod_eq_of_lt hh]
  simp [chainBytes, List.append_assoc]

theorem ipv6.parser_of_serialize (h : ipv6) (payload : List Nat) (u : Nat)
    (hv : h.version < 16) (htc : h.traffic_class < 256) (hfl : h.flow_label = 0)
    (hpl : h.payload_length < 65536) (hn : h.nxt < 256) (hhl : h.hop_limit < 256)
    (hs : h.src.length = 16) (hd : h.dst.length = 16)
    (hw : ∀ e ∈ h.ext_hdrs, e.1 ∈ IPV6_EXT_HEADER_TYPE ∧ opt_header.wf e.2 = true)
    (hlink : chainLinked u h.ext_hdrs)
    (hstart : chainStart u h.ext_hdrs = h.nxt)
    (hu : u ∉ IPV6_EXT_HEADER_TYPE)
    (hp : payload.length = h.payload_length) :
    ipv6.parser (h.serialize ++ payload) = some (h, u, payload) := by
  have e8 : (2 : Nat) ^ 8 = 256 := by norm_num
  have e16 : (2 : Nat) ^ 16 = 65536 := by norm_num
  have e20 : (2 : Nat) ^ 20 = 1048576 := by norm_num
  have e28 : (2 : Nat) ^ 28 = 268435456 := by norm_num
  have e32 : (2 : Nat) ^ 32 = 4294967296 := by norm_num
  have hw2 : ∀ e ∈ h.ext_hdrs, opt_header.wf e.2 = true := fun e he => (hw e he).2
  have hcb : (chainBytes h.ext_hdrs).length = chainLen h.ext_hdrs :=
    chainBytes_length _ hw2
  have htcb : h.traffic_class <<< 20 < 2 ^ 28 := by
    rw [Nat.shiftLeft_eq]
    omega
  have hw0 : h.version <<< 28 ||| h.traffic_class <<< 20 ||| h.flow_label <<< 12
      = h.version * 2 ^ 28 + h.traffic_class * 2 ^ 20 := by
    rw [hfl, Nat.zero_shiftLeft, Nat.or_zero, lor_shiftLeft_eq_add _ htcb,
      Nat.shiftLeft_eq]
  have hwlt : h.version * 2 ^ 28 + h.traffic_class * 2 ^ 20 < 2 ^ 32 := by omega
  have hser := ipv6.serialize_decomp h hn hhl hs hd payload
  rw [hw0] at hser
  have hlen4 := toBytesBE_length 4 (h.version * 2 ^ 28 + h.traffic_class * 2 ^ 20)
  have hlen2 := toBytesBE_length 2 h.payload_length
  have ht4 : (h.serialize ++ payload).take 4 =
      toBytesBE 4 (h.version * 2 ^ 28 + h.traffic_class * 2 ^ 20) := by
    rw [hser]
    exact List.take_left' hlen4
  have hdr4 : (h.serialize ++ payload).drop 4 =
      toBytesBE 2 h.payload_length ++
        ([h.nxt] ++ ([h.hop_limit] ++
          (h.src ++ (h.dst ++ (chainBytes h.ext_hdrs ++ payload))))) := by
    rw [hser]
    exact List.drop_left' hlen4
  have ht2 : ((h.serialize ++ payload).drop 4).take 2 = toBytesBE 2 h.payload_length := by
    rw [hdr4]
    exact List.take_left' hlen2
  have hdr6 : (h.serialize ++ payload).drop 6 =
      [h.nxt] ++ ([h.hop_limit] ++
        (h.src ++ (h.dst ++ (chainBytes h.ext_hdrs ++ payload)))) := by
    rw [show (6 : Nat) = 4 + 2 from rfl, ← List.drop_drop, hdr4]
    exact List.drop_left' hlen2
  have hdr7 : (h.serialize ++ payload).drop 7 =
      [h.hop_limit] ++ (h.src ++ (h.dst ++ (chainBytes h.ext_hdrs ++ payload))) := by
    rw [show (7 : Nat) = 6 + 1 from rfl, ← List.drop_drop, hdr6]
    rfl
  have hdr8 : (h.serialize ++ payload).drop 8 =
      h.src ++ (h.dst ++ (chainBytes h.ext_hdrs ++ payload)) := by
    rw [show (8 : Nat) = 7 + 1 from rfl, ← List.drop_drop, hdr7]
    rfl
  have hdr24 : (h.serialize ++ payload).drop 24 =
      h.dst ++ (chainBytes h.ext_hdrs ++ payload) := by
    rw [show (24 : Nat) = 8 + 16 from rfl, ← List.drop_drop, hdr8]
    exact List.drop_left' hs
  have hdr40 : (h.serialize ++ payload).drop 40 = chainBytes h.ext_hdrs ++ payload := by
    rw [show (40 : Nat) = 24 + 16 from rfl, ← List.drop_drop, hdr24]
    exact List.drop_left' hd
  have ht16s : ((h.serialize ++ payload).drop 8).take 16 = h.src := by
    rw [hdr8]
    exact List.take_left' hs
  have ht16d : ((h.serialize ++ payload).drop 24).take 16 = h.dst := by
    rw [hdr24]
    exact List.take_left' hd
  have hhn : ((h.serialize ++ payload).drop 6).headD 0 = h.nxt := by
    rw [hdr6]
    rfl
  have hhh : ((h.serialize ++ payload).drop 7).headD 0 = h.hop_limit := by
    rw [hdr7]
    rfl
  have hlenbuf : (h.serialize ++ payload).length =
      40 + chainLen h.ext_hdrs + payload.length := by
    rw [hser]
    simp [toBytesBE_length, hs, hd, hcb]
    omega
  have hnl : ¬ ((h.serialize ++ payload).length < 40) := by
    rw [hlenbuf]
    omega
  have hfb4 : fromBytesBE (toBytesBE 4 (h.version * 2 ^ 28 + h.traffic_class * 2 ^ 20)) =
      h.version * 2 ^ 28 + h.traffic_class * 2 ^ 20 :=
    fromBytesBE_toBytesBE_of_lt (by norm_num; omega)
  have hfb2 : fromBytesBE (toBytesBE 2 h.payload_length) = h.payload_length :=
    fromBytesBE_toBytesBE_of_lt (by norm_num; omega)
  have hv' : (h.version * 2 ^ 28 + h.traffic_class * 2 ^ 20) >>> 28 = h.version := by
    rw [Nat.shiftRight_eq_div_pow]
    omega
  have htc' : ((h.version * 2 ^ 28 + h.traffic_class * 2 ^ 20) >>> 20) &&& 0xff =
      h.traffic_class := by
    rw [Nat.shiftRight_eq_div_pow, show (0xff : Nat) = 2 ^ 8 - 1 by norm_num,
      Nat.and_pow_two_sub_one_eq_mod]
    omega
  have hfl' : (h.version * 2 ^ 28 + h.traffic_class * 2 ^ 20) &&& 0xfffff = 0 := by
    rw [show (0xfffff : Nat) = 2 ^ 20 - 1 by norm_num, Nat.and_pow_two_sub_one_eq_mod]
    omega
  have hfuel : h.ext_hdrs.length + 1 ≤ (h.serialize ++ payload).length + 1 := by
    have := chainLen_ge_length h.ext_hdrs
    omega
  have hpc := parseChain_serialized h.ext_hdrs u (h.serialize ++ payload) payload 40
    ((h.serialize ++ payload).length + 1) hw hlink hu hdr40 hfuel
  rw [hstart] at hpc
  have hdrfin : (h.serialize ++ payload).drop (40 + chainLen h.ext_hdrs) = payload := by
    rw [← List.drop_drop, hdr40]
    exact List.drop_left' hcb
  have htakefin : payload.take h.payload_length = payload := by
    rw [← hp]
    exact List.take_length payload
  have hfix : ipv6.init h.version h.traffic_class 0 h.payload_length u h.hop_limit
      h.src h.dst h.ext_hdrs = h := by
    rw [ipv6.init_relink_fixpoint _ _ _ _ _ _ _ _ _ hlink, hstart, ← hfl]
  simp only [ipv6.parser, if_neg hnl, ht4, ht2, hhn, hhh, ht16s, ht16d, hfb4, hfb2,
    hv', htc', hfl', hpc, hdrfin, htakefin, hfix]

/-- Claim C1 (amended): for every valid IPv6 header constructed with
flow_label 0 (the encoder re-packs the flow label shifted left 12 bits, so
only a zero flow label round-trips exactly), 0..N well-formed option-bearing
extension headers, an unregistered upper-layer type, and a payload of the
declared length, the codec round-trips: parsing the serialization returns
the header field-for-field (chain linkage included), the upper-layer type,
and the payload byte-for-byte; consequently re-serializing what was parsed
reproduces the buffer byte-for-byte. -/
theorem claim_C1_thm (v tc pl u hl : Nat) (src dst : List Nat)
    (exts : List (Nat × opt_header)) (payload : List Nat)
    (hv : v < 16) (htc : tc < 256) (hpl : pl < 65536) (hu : u < 256)
    (hur : u ∉ IPV6_EXT_HEADER_TYPE) (hhl : hl < 256)
    (hsrc : src.length = 16) (hdst : dst.length = 16)
    (hexts : ∀ e ∈ exts, ext_wf e = true)
    (hp : payload.length = pl) :
    ipv6.parser (ipv6.serialize (ipv6.init v tc 0 pl u hl src dst exts) ++ payload) =
      some (ipv6.init v tc 0 pl u hl src dst exts, u, payload) ∧
    (∀ x m last p,
      x = ipv6.serialize (ipv6.init v tc 0 pl u hl src dst exts) ++ payload →
      ipv6.parser x = some (m, last, p) →
      ipv6.serialize m ++ p = x) := by
  obtain ⟨f1, f2, f3, f4, f5, f6, f7, f8⟩ := ipv6.init_fields v tc 0 pl u hl src dst exts
  obtain ⟨g1, g2⟩ := ipv6.init_ext v tc 0 pl u hl src dst exts
  have hnlt : (ipv6.init v tc 0 pl u hl src dst exts).nxt < 256 := by
    rw [f8]
    cases exts with
    | nil => exact hu
    | cons e rest =>
      rw [chainStart_cons]
      exact registry_lt (ext_wf_parts e (hexts e (List.mem_cons_self _ _))).1
  have hmain := ipv6.parser_of_serialize (ipv6.init v tc 0 pl u hl src dst exts)
    payload u
    (by rw [f1]; exact hv) (by rw [f2]; exact htc) f3 (by rw [f4]; exact hpl)
    hnlt (by rw [f5]; exact hhl) (by rw [f6]; exact hsrc) (by rw [f7]; exact hdst)
    (ipv6.init_ext_wf v tc 0 pl u hl src dst exts hexts hu)
    g1 g2 hur (by rw [f4]; exact hp)
  refine ⟨hmain, ?_⟩
  intro x m last p hx hparse
  subst hx
  rw [hmain] at hparse
  have h2 := Option.some.inj hparse
  simp only [Prod.ext_iff] at h2
  obtain ⟨hm, -, hpp⟩ := h2
  rw [← hm, ← hpp]

/-- Claim C1 counterexample: the claim as stated includes flow_label in
the field-for-field round trip; a header constructed with flow_label 1
parses back from its own serialization with flow_label 4096 (the encoder
packs flow_label shifted left 12 bits while the decoder reads the raw
20-bit field). -/
theorem claim_C1_cex :
    (ipv6.init 6 0 1 0 6 64 (List.replicate 16 0) (List.replicate 16 0) []).flow_label
      = 1 ∧
    (ipv6.parser (ipv6.serialize
        (ipv6.init 6 0 1 0 6 64 (List.replicate 16 0) (List.replicate 16 0) []))).map
      (fun q => q.1.flow_label) = some 4096 ∧
    ¬ (ipv6.parser (ipv6.serialize
        (ipv6.init 6 0 1 0 6 64 (List.replicate 16 0) (List.replicate 16 0) []))).map
      (fun q => q.1.flow_label) = some 1 := by
  exact ⟨by decide, by decide, by decide⟩

/-- Claim C1 witness: a header with one hop-by-hop extension header of six
pad-one options and a 2-byte payload. -/
theorem claim_C1_witness :
    (6 : Nat) < 16 ∧ (0 : Nat) < 256 ∧ (2 : Nat) < 65536 ∧ (6 : Nat) < 256 ∧
    (6 : Nat) ∉ IPV6_EXT_HEADER_TYPE ∧ (64 : Nat) < 256 ∧
    (List.replicate 16 (0 : Nat)).length = 16 ∧
    (∀ e ∈ [((0 : Nat), (⟨99, 0, List.replicate 6 ⟨0, -1, none⟩⟩ : opt_header))],
      ext_wf e = true) ∧
    ([1, 2] : List Nat).length = 2 ∧
    ipv6.parser (ipv6.serialize
        (ipv6.init 6 0 0 2 6 64 (List.replicate 16 0) (List.replicate 16 0)
          [(0, ⟨99, 0, List.replicate 6 ⟨0, -1, none⟩⟩)]) ++ [1, 2]) =
      some (ipv6.init 6 0 0 2 6 64 (List.replicate 16 0) (List.replicate 16 0)
          [(0, ⟨99, 0, List.replicate 6 ⟨0, -1, none⟩⟩)], 6, [1, 2]) := by
  refine ⟨by decide, by decide, by decide, by decide, by decide, by decide, by decide,
    by decide, by decide, ?_⟩
  exact (claim_C1_thm 6 0 2 6 64 (List.replicate 16 0) (List.replicate 16 0)
    [(0, ⟨99, 0, List.replicate 6 ⟨0, -1, none⟩⟩)] [1, 2]
    (by decide) (by decide) (by decide) (by decide) (by decide) (by decide)
    (by decide) (by decide) (by decide) (by decide)).1
